import Mathlib

/-!
Shallow embedding of `solve_recruitment_task.py`: renaming of point
features along watercourses.

The script delegates all geometry to an external engine
(`QgsGeometry.distance`, `QgsGeometry.lineLocatePoint`), so for a fixed
watercourse line each point carries the two values the script reads from
that engine: its distance to the line and its arclength position along it,
both as exact rationals.  Attribute access `point[field]` on the
legacy-name field is modelled as an optional string (`None`/NULL = `none`).
Python dicts are modelled as insertion-ordered association lists whose
assignment updates an existing key in place and appends a fresh one.
-/

namespace RecruitTask

/-- One feature of the points layer, as the script sees it for one fixed
watercourse line: feature id, distance to the line, arclength position on
the line, and the legacy-name attribute. -/
structure QgsPointFeature where
  fid : Nat
  dist : ℚ
  loc : ℚ
  legacy : Option String
deriving DecidableEq, Repr

/-- Python truthiness of the legacy-name attribute value: `None` and the
empty string are falsy, every other string is truthy. -/
def truthy : Option String → Bool
  | none => false
  | some s => s != ""

/-- One Python dict assignment `d[k] = v`, on the insertion-ordered
association-list model of a dict: an existing key is updated in place, a
new key is appended.  Shared by the arclength-keyed dict of the locator
and the FID-keyed name dicts. -/
def pydictInsert {α β : Type} [DecidableEq α] (d : List (α × β)) (k : α)
    (v : β) : List (α × β) :=
  if k ∈ d.map Prod.fst then
    d.map (fun kv => if kv.1 = k then (kv.1, v) else kv)
  else d ++ [(k, v)]

/-- Python `d.get(k)` / `d[k]` on the same model. -/
def pydictFind {α β : Type} [DecidableEq α] (d : List (α × β)) (k : α) :
    Option β :=
  (d.find? (fun kv => decide (kv.1 = k))).map Prod.snd

/-- Python `d.update(ns)`: the assignments of `ns` applied in its
insertion order. -/
def pydictUpdate {α β : Type} [DecidableEq α] (d : List (α × β))
    (ns : List (α × β)) : List (α × β) :=
  ns.foldl (fun d kv => pydictInsert d kv.1 kv.2) d

/-- The fixed distance threshold `1e-6` of the script, as the exact
rational 1/1000000 (written with `mkRat` so that comparisons reduce in
the kernel). -/
def tolerance : ℚ := mkRat 1 1000000

/-- The `intersecting_points` dict built by the loop of
`intersecting_points_sorted_by_direction`: every point whose distance to
the line is strictly below the tolerance is assigned under its arclength
position as key (equal arclengths therefore overwrite). -/
def intersectingDict (pts : List QgsPointFeature) : List (ℚ × QgsPointFeature) :=
  pts.foldl (fun d p => if p.dist < tolerance then pydictInsert d p.loc p else d) []

/-- The comparison used by Python's `sorted(items, key=lambda item: item[0])`. -/
def locKeyLe (a b : ℚ × QgsPointFeature) : Prop := a.1 ≤ b.1

instance : DecidableRel locKeyLe :=
  fun a b => inferInstanceAs (Decidable (a.1 ≤ b.1))

instance : IsTotal (ℚ × QgsPointFeature) locKeyLe :=
  ⟨fun a b => le_total a.1 b.1⟩

instance : IsTrans (ℚ × QgsPointFeature) locKeyLe :=
  ⟨fun _ _ _ h h' => le_trans h h'⟩

/-- Embeds `intersecting_points_sorted_by_direction`: build the arclength-keyed
dict, sort its items by key and return the point objects.  The dict's keys
are pairwise distinct (`intersectingDict_keys_nodup` below), so the sorted
order is unique and insertion sort reproduces Python's stable `sorted`
exactly. -/
def intersecting_points_sorted_by_direction (pts : List QgsPointFeature) :
    List QgsPointFeature :=
  ((intersectingDict pts).insertionSort locKeyLe).map Prod.snd

/-- Embeds `points_by_watercourse`: one ordered run per watercourse, in the
iteration order of the lines dict. -/
def points_by_watercourse (pts : List QgsPointFeature)
    (lines : List String) (distOf : String → QgsPointFeature → ℚ)
    (locOf : String → QgsPointFeature → ℚ) :
    List (String × List QgsPointFeature) :=
  lines.map (fun name =>
    (name, intersecting_points_sorted_by_direction
      (pts.map (fun p => { p with dist := distOf name p, loc := locOf name p }))))

/-- The inner loop of `_next_letter` with an explicit fuel so that the
definition is structural and kernel-reducible: each iteration replaces
`num` by `(num - 1) / 26`, so `num` itself bounds the iteration count.
The loop's defining equation is recovered as `next_letter_succ` below. -/
def nextLetterAux (fuel n : Nat) : List Char :=
  match n, fuel with
  | 0, _ => []
  | _ + 1, 0 => []
  | n + 1, fuel + 1 => nextLetterAux fuel (n / 26) ++ [Char.ofNat (97 + n % 26)]

/-- Embeds `_next_letter`: the character list yielded on the `n`-th `next(...)`
call (1-based), produced by the inner loop
`while num > 0: num, remainder = divmod(num - 1, 26);
result = letters[remainder] + result` started at `num = n`
(`letters[r]` is `chr(97 + r)`). -/
def next_letter (n : Nat) : List Char := nextLetterAux n n

/-- The whitespace CPython's `int` strips from both ends of its argument
(`Py_UNICODE_ISSPACE`): tab through carriage return, the ASCII
information separators 0x1C..0x1F, space, and the Unicode space
characters NEL, NBSP, OGHAM SPACE MARK, the EN-QUAD..HAIR-SPACE block,
LINE/PARAGRAPH SEPARATOR, NARROW NBSP, MEDIUM MATHEMATICAL SPACE and
IDEOGRAPHIC SPACE. -/
def isPySpace (c : Char) : Bool :=
  let n := c.toNat
  decide ((9 ≤ n ∧ n ≤ 13) ∨ (28 ≤ n ∧ n ≤ 32) ∨ n = 0x85 ∨ n = 0xA0 ∨
    n = 0x1680 ∨ (0x2000 ≤ n ∧ n ≤ 0x200A) ∨ n = 0x2028 ∨ n = 0x2029 ∨
    n = 0x202F ∨ n = 0x205F ∨ n = 0x3000)

/-- Decimal value of one character under the modelled digit repertoire:
the ASCII digits plus the decimal-digit (Nd) blocks of Arabic-Indic,
Extended Arabic-Indic, Devanagari, Bengali, Gurmukhi, Gujarati, Oriya,
Tamil, Telugu, Kannada, Malayalam, Thai, Lao, Tibetan, Myanmar, Khmer,
Mongolian and the fullwidth digits, each valued by its offset from the
block base.  CPython's `int` accepts every Unicode Nd digit; blocks
outside this list are not modelled, so the model is exact on the listed
repertoire (in particular on ASCII) and conservatively rejects other
digits — the error-path theorem for C8 therefore carries an ASCII
guard. -/
def pyDigitVal (c : Char) : Option Nat :=
  let n := c.toNat
  let bases : List Nat := [0x30, 0x660, 0x6F0, 0x966, 0x9E6, 0xA66, 0xAE6,
    0xB66, 0xBE6, 0xC66, 0xCE6, 0xD66, 0xE50, 0xED0, 0xF20, 0x1040, 0x17E0,
    0x1810, 0xFF10]
  match bases.find? (fun b => decide (b ≤ n ∧ n ≤ b + 9)) with
  | some b => some (n - b)
  | none => none

/-- Digit run after the optional sign, exactly as CPython's `int` parses
it: digits with single `_` separators allowed strictly between digits
(no leading, trailing or doubled underscore), accumulated base 10. -/
def pyDigitsAux : Nat → List Char → Option Nat
  | acc, [] => some acc
  | _, ['_'] => none
  | acc, '_' :: c :: rest =>
    match pyDigitVal c with
    | some v => pyDigitsAux (acc * 10 + v) rest
    | none => none
  | acc, c :: rest =>
    match pyDigitVal c with
    | some v => pyDigitsAux (acc * 10 + v) rest
    | none => none

/-- A non-empty underscore-grouped digit run starting with a digit. -/
def pyDigits : List Char → Option Nat
  | [] => none
  | c :: rest =>
    match pyDigitVal c with
    | some v => pyDigitsAux v rest
    | none => none

/-- Removal of trailing modelled whitespace: the back half of `pyStrip`,
split out for the proofs. -/
def stripEnd (l : List Char) : List Char :=
  (l.reverse.dropWhile isPySpace).reverse

/-- The whitespace stripping CPython's `int` applies to both ends. -/
def pyStrip (l : List Char) : List Char :=
  stripEnd (l.dropWhile isPySpace)

/-- Sign-and-digits core of `int` after whitespace stripping: optional
single sign directly followed by the digit run. -/
def pyIntCore : List Char → Option Int
  | [] => none
  | c :: rest =>
    if c = '-' then (pyDigits rest).map (fun n => -(n : Int))
    else if c = '+' then (pyDigits rest).map (fun n => (n : Int))
    else (pyDigits (c :: rest)).map (fun n => (n : Int))

/-- Python `int(s)` character-level: strip whitespace, optional sign,
underscore-grouped decimal digits; a `ValueError` is `none`. -/
def pyIntChars (l : List Char) : Option Int := pyIntCore (pyStrip l)

/-- Python `int(s)` on a string. -/
def pyInt (s : String) : Option Int := pyIntChars s.data

/-- Python `s[:-1]`: the string without its final character. -/
def strInit (s : String) : String := ⟨s.data.dropLast⟩

/-- Embeds `PointsSegment` after `populate`: half-open index range into the run,
the anchor names passed as `char_start` / `char_end` (`''` for absent) and
the member feature ids.  `end` is a Lean keyword, hence `end_`. -/
structure PointsSegment where
  start : Nat
  end_ : Nat
  char_start : String
  char_end : String
  fids : List Nat
deriving DecidableEq, Repr

/-- Embeds `_define_state`: 1 = no anchors, 2 = end anchor only, 3 = both,
4 = start anchor only, decided by Python truthiness of the two strings. -/
def PointsSegment.state (s : PointsSegment) : Nat :=
  if s.char_start = "" then (if s.char_end = "" then 1 else 2)
  else (if s.char_end = "" then 4 else 3)

/-- Embeds `_naming_one` (state 1): the dict comprehension numbering the
fids as "1P", "2P", ... over `enumerate(fids)`.
Each naming dict is kept as its insertion-ordered pair list; the fids of
one segment are pairwise distinct feature ids, so the dict comprehension
never collapses entries. -/
def naming_one (fids : List Nat) : List (Nat × String) :=
  fids.enum.map (fun p => (p.2, toString (p.1 + 1) ++ "P"))

/-- Embeds `_naming_two` (state 2): "1Pnowy", "2Pnowy", ... -/
def naming_two (fids : List Nat) : List (Nat × String) :=
  fids.enum.map (fun p => (p.2, toString (p.1 + 1) ++ "Pnowy"))

/-- Embeds `_naming_three` (state 3): the start anchor followed by the
generator output, which yields `next_letter 1, next_letter 2, ...`. -/
def naming_three (cs : String) (fids : List Nat) : List (Nat × String) :=
  fids.enum.map (fun p => (p.2, cs ++ String.mk (next_letter (p.1 + 1))))

/-- Embeds `_naming_four` (state 4): `start_number = int(char_start[:-1])`,
then each fid is numbered from `start_number + num + 1` with suffix "P";
the possible `ValueError` of `int` is the `none` case. -/
def naming_four (cs : String) (fids : List Nat) : Option (List (Nat × String)) :=
  (pyInt (strInit cs)).map (fun d =>
    fids.enum.map (fun p => (p.2, toString (d + (p.1 : Int) + 1) ++ "P")))

/-- The `create_new_names` method: no-op on an empty segment (the early
`return` leaves `names = {}`), otherwise dispatch on the four states. -/
def PointsSegment.create_new_names (s : PointsSegment) :
    Option (List (Nat × String)) :=
  if s.fids = [] then some []
  else match s.state with
    | 1 => some (naming_one s.fids)
    | 2 => some (naming_two s.fids)
    | 3 => some (naming_three s.char_start s.fids)
    | 4 => naming_four s.char_start s.fids
    | _ => some []

/-- The loop of `calc_breakpoints`, with `k` the index that `enumerate`
gives the head of the remaining list: indices whose point has a truthy
legacy name, with that name.  (Every modelled feature carries the field,
so the `KeyError` branch cannot fire.) -/
def breakpointsFrom (k : Nat) : List QgsPointFeature → List (Nat × String)
  | [] => []
  | p :: rest =>
    (if truthy p.legacy then [(k, p.legacy.getD (""))] else []) ++
      breakpointsFrom (k + 1) rest

/-- Embeds `calc_breakpoints`: `enumerate` starts at index 0. -/
def calc_breakpoints (pts : List QgsPointFeature) : List (Nat × String) :=
  breakpointsFrom 0 pts

/-- Embeds `calc_intervals`.  Here `indexes` is produced in ascending key order
(`breakpointsFrom` scans left to right, see `calc_breakpoints_keys_lt`),
so Python's `sorted(breakpoints_dict.keys())` leaves it unchanged.  The
comprehension `[[indexes[i]+1, indexes[i+1]] for i in range(len(indexes)-1)]`
is the zip with the tail.  Python's `segments[-1]` / `segments[0]`
subscripts presuppose a non-empty list, which holds whenever a breakpoint
exists; `getD (0, 0)` stands in for that unreachable empty case. -/
def calc_intervals (bps : List (Nat × String)) (pts : List QgsPointFeature) :
    List (Nat × Nat) :=
  match bps.map Prod.fst with
  | [] => []
  | i0 :: irest =>
    let seg0 := ((i0 :: irest).zip irest).map (fun p => (p.1 + 1, p.2))
    let seg1 := if i0 = 0 ∧ seg0 = [] then seg0 ++ [(1, pts.length + 1)] else seg0
    let seg2 := if i0 ≠ 0 ∧ seg1 = [] then seg1 ++ [(0, i0)] else seg1
    let seg3 := if (seg2.getLast?.getD (0, 0)).2 < pts.length - 1 then
        seg2 ++ [((seg2.getLast?.getD (0, 0)).2 + 1, pts.length + 1)] else seg2
    if (seg3.head?.getD (0, 0)).1 ∉ ([0, 1] : List Nat) then
      seg3 ++ [(0, (seg3.head?.getD (0, 0)).1 - 1)]
    else seg3

/-- Embeds the dict read `breakpoints.get(k, dflt)`. -/
def bpGet (bps : List (Nat × String)) (k : Nat) (dflt : String) : String :=
  (pydictFind bps k).getD dflt

/-- The body of the `for segment in segments_by_breakpoints` loop:
anchor-name selection plus `PointsSegment.populate`
(`points[start:end]` = drop `start`, take `end - start`). -/
def mkSegment (bps : List (Nat × String)) (pts : List QgsPointFeature)
    (iv : Nat × Nat) : PointsSegment :=
  { start := iv.1
    end_ := iv.2
    char_start := if iv.1 = 0 then ("") else bpGet bps (iv.1 - 1) ("")
    char_end := if iv.2 > pts.length then ("") else bpGet bps (iv.2) ("")
    fids := ((pts.drop iv.1).take (iv.2 - iv.1)).map QgsPointFeature.fid }

/-- Processing of one watercourse's non-empty ordered run inside
`segment_points_by_old_num` (empty runs are skipped by the caller). -/
def segmentsOfRun (pts : List QgsPointFeature) : List PointsSegment :=
  let bps := calc_breakpoints pts
  let ivs := if bps = [] then [(0, pts.length + 1)] else calc_intervals bps pts
  ivs.map (mkSegment bps pts)

/-- Embeds `segment_points_by_old_num` over the ordered runs (the Python dict's
watercourse iteration order is the list order here). -/
def segment_points_by_old_num (runs : List (String × List QgsPointFeature)) :
    List PointsSegment :=
  runs.foldl (fun acc r => if r.2 = [] then acc else acc ++ segmentsOfRun r.2) []

/-- Embeds `prepare_new_values_dict`: seed FID → legacy name, with `None`
replaced by the string "NULL" (feature ids are unique in the layer). -/
def prepare_new_values_dict (pts : List QgsPointFeature) : List (Nat × String) :=
  pts.foldl (fun d p => pydictInsert d p.fid (p.legacy.getD ("NULL"))) []

/-- The module-level `create_new_names`: every segment's generated names
folded into the base dict by `base_dict.update(segment.names)` in segment
order; a naming failure propagates. -/
def create_new_names (base : List (Nat × String)) (segs : List PointsSegment) :
    Option (List (Nat × String)) :=
  segs.foldlM (fun d s => (s.create_new_names).map (fun ns => pydictUpdate d ns)) base

/-- Modelled from the spec, for comparison with the code's
`int(char_start[:-1])`: the spec's `numericPrefix` operation — "strips a
trailing non-digit suffix ... and parses the remaining leading digits as
an integer". -/
def specNumericStem (s : String) : Option Nat :=
  let stripped := (s.data.reverse.dropWhile (fun c => !c.isDigit)).reverse
  let lead := stripped.takeWhile Char.isDigit
  if lead = [] then none
  else some (lead.foldl (fun a c => a * 10 + (c.toNat - 48)) 0)

/-- Head analysis of an anchor after leading-whitespace stripping: does
it begin with an optional sign directly followed by a modelled decimal
digit?  This is precisely the shape every string accepted by `pyIntChars`
must begin with. -/
def hasLeadingIntCore : List Char → Bool
  | [] => false
  | c :: rest =>
    if c = '-' ∨ c = '+' then
      match rest with
      | [] => false
      | c2 :: _ => (pyDigitVal c2).isSome
    else (pyDigitVal c).isSome

/-- Spec-side predicate for the error claims: the anchor name starts
(after the whitespace stripping that `int` performs) with a parseable
leading integer — an optional sign directly followed by a decimal
digit. -/
def hasLeadingInt (s : String) : Bool :=
  hasLeadingIntCore (s.data.dropWhile isPySpace)

/-- Spec-side decoder: the numeric rank of a letter string read as a
bijective base-26 numeral over the lowercase alphabet (a = 1 .. z = 26). -/
def decodeBij (l : List Char) : Nat :=
  l.foldl (fun a c => a * 26 + (c.toNat - 96)) 0

/-! ### Letter-suffix generator (C4) -/

theorem nextLetterAux_mono : ∀ f g n, n ≤ f → n ≤ g →
    nextLetterAux f n = nextLetterAux g n := by
  intro f
  induction f with
  | zero =>
    intro g n hf _
    interval_cases n
    cases g <;> rfl
  | succ f ih =>
    intro g n hf hg
    match n, g with
    | 0, g => cases g <;> rfl
    | m + 1, g + 1 =>
      show nextLetterAux f (m / 26) ++ _ = nextLetterAux g (m / 26) ++ _
      rw [ih g (m / 26)
        (le_trans (Nat.div_le_self m 26) (Nat.lt_succ_iff.mp hf))
        (le_trans (Nat.div_le_self m 26) (Nat.lt_succ_iff.mp hg))]

/-- The defining equation of the `_next_letter` inner loop. -/
theorem next_letter_succ (n : Nat) :
    next_letter (n + 1) = next_letter (n / 26) ++ [Char.ofNat (97 + n % 26)] := by
  show nextLetterAux n (n / 26) ++ _ = nextLetterAux (n / 26) (n / 26) ++ _
  rw [nextLetterAux_mono n (n / 26) (n / 26) (Nat.div_le_self n 26) le_rfl]

/-- Each letter `letters[r] = chr(97 + r)` has code point `97 + r` for the 26
lowercase letters. -/
theorem letter_toNat : ∀ r < 26, (Char.ofNat (97 + r)).toNat = 97 + r := by decide

theorem decodeBij_next_letter (n : Nat) : decodeBij (next_letter n) = n := by
  induction n using Nat.strong_induction_on with
  | _ n ih =>
    match n with
    | 0 => rfl
    | n + 1 =>
      have hq : decodeBij (next_letter (n / 26)) = n / 26 :=
        ih _ (Nat.lt_succ_of_le (Nat.div_le_self n 26))
      have hc : (Char.ofNat (97 + n % 26)).toNat = 97 + n % 26 :=
        letter_toNat _ (Nat.mod_lt _ (by norm_num))
      have : decodeBij (next_letter (n + 1)) =
          decodeBij (next_letter (n / 26)) * 26 +
            ((Char.ofNat (97 + n % 26)).toNat - 96) := by
        rw [next_letter_succ]
        simp [decodeBij, List.foldl_append]
      rw [this, hq, hc]
      omega

theorem next_letter_chars (n : Nat) :
    ∀ c ∈ next_letter n, 97 ≤ c.toNat ∧ c.toNat ≤ 122 := by
  induction n using Nat.strong_induction_on with
  | _ n ih =>
    match n with
    | 0 => intro c hc; simp [next_letter, nextLetterAux] at hc
    | n + 1 =>
      intro c hc
      rw [next_letter_succ] at hc
      rcases List.mem_append.1 hc with h | h
      · exact ih _ (Nat.lt_succ_of_le (Nat.div_le_self n 26)) c h
      · have hr : c = Char.ofNat (97 + n % 26) := by simpa using h
        have := letter_toNat (n % 26) (Nat.mod_lt _ (by norm_num))
        subst hr
        omega

/-- C4: the n-th value of the letter-suffix generator is the bijective
base-26 encoding of n over the lowercase letters (1→"a", 2→"b", 26→"z",
27→"aa", 28→"ab", 52→"az", 53→"ba"), every produced letter lies in
'a'..'z' and the string is non-empty, and decoding the produced string as
a bijective base-26 numeral recovers n. -/
theorem claim4_letter_suffix_bijective_base26 :
    String.mk (next_letter 1) = "a" ∧ String.mk (next_letter 2) = "b" ∧
    String.mk (next_letter 26) = "z" ∧ String.mk (next_letter 27) = "aa" ∧
    String.mk (next_letter 28) = "ab" ∧ String.mk (next_letter 52) = "az" ∧
    String.mk (next_letter 53) = "ba" ∧
    (∀ n : Nat, decodeBij (next_letter n) = n) ∧
    (∀ n : Nat, next_letter (n + 1) ≠ [] ∧
      ∀ c ∈ next_letter (n + 1), 97 ≤ c.toNat ∧ c.toNat ≤ 122) := by
  refine ⟨by decide, by decide, by decide, by decide, by decide, by decide,
    by decide, decodeBij_next_letter, fun n => ⟨?_, next_letter_chars _⟩⟩
  rw [next_letter_succ]
  simp

/-! ### Breakpoints: C10 and helpers for the segmentation claims -/

theorem breakpointsFrom_key_ge : ∀ (pts : List QgsPointFeature) (k : Nat)
    (kv : Nat × String), kv ∈ breakpointsFrom k pts → k ≤ kv.1 := by
  intro pts
  induction pts with
  | nil => intro k kv h; simp [breakpointsFrom] at h
  | cons p rest ih =>
    intro k kv h
    simp only [breakpointsFrom] at h
    rcases List.mem_append.1 h with h1 | h1
    · by_cases ht : truthy p.legacy
      · simp only [ht, if_true, List.mem_singleton] at h1
        simp [h1]
      · simp [ht] at h1
    · exact le_trans (Nat.le_succ k) (ih (k + 1) kv h1)

theorem breakpointsFrom_pairwise : ∀ (pts : List QgsPointFeature) (k : Nat),
    (breakpointsFrom k pts).Pairwise (fun a b => a.1 < b.1) := by
  intro pts
  induction pts with
  | nil => intro k; simp [breakpointsFrom]
  | cons p rest ih =>
    intro k
    simp only [breakpointsFrom]
    refine List.pairwise_append.2 ⟨?_, ih (k + 1), ?_⟩
    · by_cases ht : truthy p.legacy <;> simp [ht]
    · intro a ha b hb
      have hb' := breakpointsFrom_key_ge rest (k + 1) b hb
      by_cases ht : truthy p.legacy
      · simp only [ht, if_true, List.mem_singleton] at ha
        subst ha
        omega
      · simp [ht] at ha

theorem pydictFind_of_pairwise_lt : ∀ (l : List (Nat × String)),
    l.Pairwise (fun a b => a.1 < b.1) → ∀ (k : Nat) (v : String), (k, v) ∈ l →
    pydictFind l k = some v := by
  intro l
  induction l with
  | nil => intro _ k v hm; simp at hm
  | cons h t ih =>
    intro hp k v hm
    unfold pydictFind
    rcases List.mem_cons.1 hm with heq | hm'
    · rw [← heq, List.find?_cons_of_pos _ (by simp)]
      rfl
    · have hk : h.1 < k := by
        have := (List.pairwise_cons.1 hp).1 _ hm'
        simpa using this
      rw [List.find?_cons_of_neg _ (by simp; omega)]
      exact ih (List.pairwise_cons.1 hp).2 k v hm'

theorem breakpointsFrom_mem_char : ∀ (pts : List QgsPointFeature) (k i : Nat)
    (h : i < pts.length),
    ((∃ s, (k + i, s) ∈ breakpointsFrom k pts) ↔
      truthy ((pts.get ⟨i, h⟩).legacy) = true) ∧
    (∀ s, (k + i, s) ∈ breakpointsFrom k pts →
      (pts.get ⟨i, h⟩).legacy = some s) := by
  intro pts
  induction pts with
  | nil => intro k i h; simp at h
  | cons p rest ih =>
    intro k i h
    cases i with
    | zero =>
      simp only [List.get]
      constructor
      · constructor
        · rintro ⟨s, hs⟩
          simp only [breakpointsFrom, Nat.add_zero] at hs
          rcases List.mem_append.1 hs with h1 | h1
          · by_cases ht : truthy p.legacy
            · exact ht
            · simp [ht] at h1
          · have := breakpointsFrom_key_ge rest (k + 1) _ h1
            omega
        · intro ht
          refine ⟨p.legacy.getD (""), ?_⟩
          simp only [breakpointsFrom, Nat.add_zero]
          exact List.mem_append.2 (Or.inl (by simp [ht]))
      · intro s hs
        simp only [breakpointsFrom, Nat.add_zero] at hs
        rcases List.mem_append.1 hs with h1 | h1
        · by_cases ht : truthy p.legacy
          · simp only [ht, if_true, List.mem_singleton, Prod.mk.injEq] at h1
            cases hleg : p.legacy with
            | none => rw [hleg] at ht; simp [truthy] at ht
            | some t => rw [hleg] at h1; simp at h1; rw [h1]
          · simp [ht] at h1
        · have := breakpointsFrom_key_ge rest (k + 1) _ h1
          omega
    | succ j =>
      have hj : j < rest.length := by simpa using Nat.lt_of_succ_lt_succ h
      have harith : k + (j + 1) = (k + 1) + j := by omega
      have hmem : ∀ s, ((k + (j + 1), s) ∈ breakpointsFrom k (p :: rest) ↔
          ((k + 1) + j, s) ∈ breakpointsFrom (k + 1) rest) := by
        intro s
        simp only [breakpointsFrom]
        constructor
        · intro hs
          rcases List.mem_append.1 hs with h1 | h1
          · by_cases ht : truthy p.legacy
            · simp only [ht, if_true, List.mem_singleton, Prod.mk.injEq] at h1
              omega
            · simp [ht] at h1
          · rwa [harith] at h1
        · intro hs
          exact List.mem_append.2 (Or.inr (by rwa [harith]))
      have := ih (k + 1) j hj
      simp only [List.get]
      constructor
      · rw [← this.1]
        constructor
        · rintro ⟨s, hs⟩; exact ⟨s, (hmem s).1 hs⟩
        · rintro ⟨s, hs⟩; exact ⟨s, (hmem s).2 hs⟩
      · intro s hs
        exact this.2 s ((hmem s).1 hs)

/-- C10: a run position is a breakpoint of `calc_breakpoints` exactly when
the point's legacy-name attribute is Python-truthy; a `None` or
empty-string value never becomes an anchor, and the recorded anchor name
is the attribute's string. -/
theorem claim10_breakpoint_iff_truthy (pts : List QgsPointFeature) (i : Nat)
    (h : i < pts.length) :
    ((∃ s, (i, s) ∈ calc_breakpoints pts) ↔
      truthy ((pts.get ⟨i, h⟩).legacy) = true) ∧
    (∀ s, (i, s) ∈ calc_breakpoints pts → (pts.get ⟨i, h⟩).legacy = some s) := by
  have := breakpointsFrom_mem_char pts 0 i h
  simpa using this

theorem claim10_witness :
    ((∃ s, (0, s) ∈ calc_breakpoints
        [⟨1, 0, 0, some ("")⟩, ⟨2, 0, 1, some ("3P")⟩]) ↔
      truthy ((([⟨1, 0, 0, some ("")⟩, ⟨2, 0, 1, some ("3P")⟩] :
        List QgsPointFeature).get ⟨0, by decide⟩).legacy) = true) ∧
    (∀ s, (0, s) ∈ calc_breakpoints
        [⟨1, 0, 0, some ("")⟩, ⟨2, 0, 1, some ("3P")⟩] →
      (([⟨1, 0, 0, some ("")⟩, ⟨2, 0, 1, some ("3P")⟩] :
        List QgsPointFeature).get ⟨0, by decide⟩).legacy = some s) :=
  claim10_breakpoint_iff_truthy _ 0 (by decide)

/-! ### Interval construction: C2 -/

theorem breakpointsFrom_key_lt : ∀ (pts : List QgsPointFeature) (k : Nat)
    (kv : Nat × String), kv ∈ breakpointsFrom k pts → kv.1 < k + pts.length := by
  intro pts
  induction pts with
  | nil => intro k kv h; simp [breakpointsFrom] at h
  | cons p rest ih =>
    intro k kv h
    simp only [breakpointsFrom] at h
    rcases List.mem_append.1 h with h1 | h1
    · by_cases ht : truthy p.legacy
      · simp only [ht, if_true, List.mem_singleton] at h1
        subst h1
        simp
      · simp [ht] at h1
    · have := ih (k + 1) kv h1
      simp only [List.length_cons]
      omega

/-- Whatever the edge rules append, `calc_intervals` starts with the
comprehension over consecutive breakpoint pairs. -/
theorem calc_intervals_eq_pairs_append (bps : List (Nat × String))
    (pts : List QgsPointFeature) (h : bps ≠ []) :
    ∃ rest, calc_intervals bps pts =
      ((bps.map Prod.fst).zip (bps.map Prod.fst).tail).map
        (fun p => (p.1 + 1, p.2)) ++ rest := by
  cases hm : bps.map Prod.fst with
  | nil => exact absurd (List.map_eq_nil_iff.mp hm) h
  | cons i0 irest =>
    simp only [calc_intervals, hm, List.tail_cons]
    split_ifs <;>
      first
        | exact ⟨[], (List.append_nil _).symm⟩
        | exact ⟨_, rfl⟩
        | exact ⟨_, List.append_assoc _ _ _⟩
        | exact ⟨_, by rw [List.append_assoc, List.append_assoc]⟩
        | exact ⟨_, by rw [List.append_assoc, List.append_assoc,
            List.append_assoc]⟩

/-- C2: for every ordered run and every pair of consecutive entries
`(i, ni)`, `(j, nj)` of the breakpoint dict (ascending keys), the `t`-th
produced segment covers exactly the open interval `i+1 .. j-1` of the run,
with `char_start = ni` and `char_end = nj`; when `j = i + 1` the slice is
empty but the segment is still recorded. -/
theorem claim2_consecutive_breakpoint_segments (pts : List QgsPointFeature)
    (t i j : Nat) (ni nj : String)
    (hi : (calc_breakpoints pts)[t]? = some (i, ni))
    (hj : (calc_breakpoints pts)[t + 1]? = some (j, nj)) :
    (segmentsOfRun pts)[t]? = some
      { start := i + 1, end_ := j, char_start := ni, char_end := nj,
        fids := ((pts.drop (i + 1)).take (j - (i + 1))).map
          QgsPointFeature.fid } := by
  obtain ⟨ht, hbt⟩ := List.getElem?_eq_some.1 hi
  obtain ⟨ht1, hbt1⟩ := List.getElem?_eq_some.1 hj
  have hne : calc_breakpoints pts ≠ [] :=
    List.ne_nil_of_length_pos (lt_of_le_of_lt (Nat.zero_le t) ht)
  obtain ⟨rest, hivs⟩ := calc_intervals_eq_pairs_append (calc_breakpoints pts) pts hne
  have hpl : ((((calc_breakpoints pts).map Prod.fst).zip
      ((calc_breakpoints pts).map Prod.fst).tail).map
        (fun p => (p.1 + 1, p.2))).length = (calc_breakpoints pts).length - 1 := by
    simp only [List.length_map, List.length_zip, List.length_tail]
    omega
  have htp : t < ((((calc_breakpoints pts).map Prod.fst).zip
      ((calc_breakpoints pts).map Prod.fst).tail).map
        (fun p => (p.1 + 1, p.2))).length := by omega
  have hrun : segmentsOfRun pts =
      (calc_intervals (calc_breakpoints pts) pts).map
        (mkSegment (calc_breakpoints pts) pts) := by
    simp only [segmentsOfRun, if_neg hne]
  have hztl : t < (((calc_breakpoints pts).map Prod.fst).zip
      ((calc_breakpoints pts).map Prod.fst).tail).length := by
    simpa using htp
  have hkt : ((calc_breakpoints pts).map Prod.fst)[t]? = some i := by
    rw [List.getElem?_map, hi]
    rfl
  have hkt1 : ((calc_breakpoints pts).map Prod.fst)[t + 1]? = some j := by
    rw [List.getElem?_map, hj]
    rfl
  have hpair : ((((calc_breakpoints pts).map Prod.fst).zip
      ((calc_breakpoints pts).map Prod.fst).tail).map
        (fun p => (p.1 + 1, p.2)))[t]? = some (i + 1, j) := by
    have hb1 : t < ((calc_breakpoints pts).map Prod.fst).length := by
      simpa using ht
    have hb2 : t + 1 < ((calc_breakpoints pts).map Prod.fst).length := by
      simpa using ht1
    have hbtl : t < ((calc_breakpoints pts).map Prod.fst).tail.length := by
      simp only [List.length_tail, List.length_map]
      omega
    rw [List.getElem?_map, List.getElem?_eq_getElem hztl]
    have hz : (((calc_breakpoints pts).map Prod.fst).zip
        ((calc_breakpoints pts).map Prod.fst).tail)[t] =
        (((calc_breakpoints pts).map Prod.fst)[t],
          ((calc_breakpoints pts).map Prod.fst).tail[t]) := List.getElem_zip
    have hz2 : ((calc_breakpoints pts).map Prod.fst).tail[t] =
        ((calc_breakpoints pts).map Prod.fst)[t + 1] :=
      List.getElem_tail _ t hbtl
    rw [hz, hz2]
    rw [List.getElem?_eq_getElem hb1] at hkt
    rw [List.getElem?_eq_getElem hb2] at hkt1
    simp only [Option.some.injEq] at hkt hkt1
    simp [hkt, hkt1]
  have hmem_i : (i, ni) ∈ calc_breakpoints pts := hbt ▸ List.getElem_mem ht
  have hmem_j : (j, nj) ∈ calc_breakpoints pts := hbt1 ▸ List.getElem_mem ht1
  have hfind_i : pydictFind (calc_breakpoints pts) i = some ni :=
    pydictFind_of_pairwise_lt _ (breakpointsFrom_pairwise pts 0) i ni hmem_i
  have hfind_j : pydictFind (calc_breakpoints pts) j = some nj :=
    pydictFind_of_pairwise_lt _ (breakpointsFrom_pairwise pts 0) j nj hmem_j
  have hjlt : j < pts.length := by
    have := breakpointsFrom_key_lt pts 0 (j, nj) hmem_j
    simpa using this
  rw [hrun, List.getElem?_map, hivs, List.getElem?_append, if_pos htp, hpair]
  simp only [Option.map_some']
  congr 1
  have h1 : ¬(i + 1 = 0) := by omega
  have h2 : ¬(j > pts.length) := by omega
  simp only [mkSegment, if_neg h1, if_neg h2, Nat.add_sub_cancel, bpGet,
    hfind_i, hfind_j, Option.getD_some]

theorem claim2_witness :
    (segmentsOfRun [⟨0, 0, 1, none⟩, ⟨1, 0, 2, some ("2P")⟩, ⟨2, 0, 3, none⟩,
      ⟨3, 0, 4, none⟩, ⟨4, 0, 5, some ("5P")⟩, ⟨5, 0, 6, none⟩])[0]? = some
      { start := 1 + 1, end_ := 4, char_start := "2P", char_end := "5P",
        fids := ((([⟨0, 0, 1, none⟩, ⟨1, 0, 2, some ("2P")⟩, ⟨2, 0, 3, none⟩,
          ⟨3, 0, 4, none⟩, ⟨4, 0, 5, some ("5P")⟩, ⟨5, 0, 6, none⟩] :
            List QgsPointFeature).drop (1 + 1)).take (4 - (1 + 1))).map
              QgsPointFeature.fid } :=
  claim2_consecutive_breakpoint_segments _ 0 1 4 ("2P") ("5P") (by decide) (by decide)

/-! ### Runs without breakpoints: C6 -/

theorem breakpointsFrom_eq_nil : ∀ (pts : List QgsPointFeature) (k : Nat),
    (∀ p ∈ pts, truthy p.legacy = false) → breakpointsFrom k pts = [] := by
  intro pts
  induction pts with
  | nil => intro k _; rfl
  | cons p rest ih =>
    intro k h
    simp only [breakpointsFrom, h p (List.mem_cons_self p rest)]
    simpa using ih (k + 1) (fun q hq => h q (List.mem_cons_of_mem _ hq))

theorem naming_one_get (fids : List Nat) (k : Nat) (hk : k < fids.length) :
    (naming_one fids)[k]? = some (fids.get ⟨k, hk⟩, toString (k + 1) ++ "P") := by
  unfold naming_one
  rw [List.getElem?_map,
    List.getElem?_eq_getElem (show k < fids.enum.length by simpa using hk),
    List.getElem_enum]
  simp

/-- C6: a non-empty run in which every legacy-name attribute is falsy
yields exactly one segment spanning the whole run with both anchors
absent, and its naming maps the k-th point (0-based `k`) to `"{k+1}P"`. -/
theorem claim6_no_breakpoints_full_run (pts : List QgsPointFeature)
    (hne : pts ≠ []) (hall : ∀ p ∈ pts, truthy p.legacy = false) :
    segmentsOfRun pts =
      [{ start := 0, end_ := pts.length + 1, char_start := "", char_end := "",
         fids := pts.map QgsPointFeature.fid }] ∧
    (PointsSegment.mk 0 (pts.length + 1) "" ""
      (pts.map QgsPointFeature.fid)).create_new_names =
        some (naming_one (pts.map QgsPointFeature.fid)) ∧
    ∀ k (hk : k < pts.length),
      (naming_one (pts.map QgsPointFeature.fid))[k]? =
        some ((pts.get ⟨k, hk⟩).fid, toString (k + 1) ++ "P") := by
  have hbp : calc_breakpoints pts = [] := breakpointsFrom_eq_nil pts 0 hall
  refine ⟨?_, ?_, ?_⟩
  · simp only [segmentsOfRun, hbp, if_pos rfl, List.map_cons, List.map_nil]
    simp [mkSegment, List.take_of_length_le, Nat.lt_succ_self]
  · have hfne : pts.map QgsPointFeature.fid ≠ [] := by
      simpa using hne
    simp [PointsSegment.create_new_names, PointsSegment.state, hfne]
  · intro k hk
    have hk' : k < (pts.map QgsPointFeature.fid).length := by simpa using hk
    rw [naming_one_get _ k hk']
    simp

theorem claim6_witness :
    segmentsOfRun [⟨5, 0, 0, none⟩, ⟨6, 0, 1, some ("")⟩] =
      [{ start := 0,
         end_ := ([⟨5, 0, 0, none⟩, ⟨6, 0, 1, some ("")⟩] :
           List QgsPointFeature).length + 1,
         char_start := "", char_end := "",
         fids := ([⟨5, 0, 0, none⟩, ⟨6, 0, 1, some ("")⟩] :
           List QgsPointFeature).map QgsPointFeature.fid }] ∧
    (PointsSegment.mk 0
      (([⟨5, 0, 0, none⟩, ⟨6, 0, 1, some ("")⟩] :
        List QgsPointFeature).length + 1) "" ""
      (([⟨5, 0, 0, none⟩, ⟨6, 0, 1, some ("")⟩] :
        List QgsPointFeature).map QgsPointFeature.fid)).create_new_names =
        some (naming_one (([⟨5, 0, 0, none⟩, ⟨6, 0, 1, some ("")⟩] :
          List QgsPointFeature).map QgsPointFeature.fid)) ∧
    ∀ k (hk : k < ([⟨5, 0, 0, none⟩, ⟨6, 0, 1, some ("")⟩] :
        List QgsPointFeature).length),
      (naming_one (([⟨5, 0, 0, none⟩, ⟨6, 0, 1, some ("")⟩] :
        List QgsPointFeature).map QgsPointFeature.fid))[k]? =
        some ((([⟨5, 0, 0, none⟩, ⟨6, 0, 1, some ("")⟩] :
          List QgsPointFeature).get ⟨k, hk⟩).fid, toString (k + 1) ++ "P") :=
  claim6_no_breakpoints_full_run _ (by decide) (by decide)

/-! ### Five-point end-to-end scenario: C3 -/

/-- C3: in a run of five ordered points where only the point at index 2
carries a legacy name ("4P"), segmentation yields exactly the two
segments `[0,2)` (endAnchor "4P") and `[3,6)` (startAnchor "4P"), named
"1Pnowy","2Pnowy" and "5P","6P" respectively.  (The second recorded slice
bound is 6; Python's slice clamps it to the run's length 5, so the
members are the points at indices 3 and 4.) -/
theorem claim3_five_point_scenario (p0 p1 p2 p3 p4 : QgsPointFeature)
    (h0 : truthy p0.legacy = false) (h1 : truthy p1.legacy = false)
    (h2 : p2.legacy = some ("4P"))
    (h3 : truthy p3.legacy = false) (h4 : truthy p4.legacy = false) :
    segmentsOfRun [p0, p1, p2, p3, p4] =
      [{ start := 0, end_ := 2, char_start := "", char_end := "4P",
         fids := [p0.fid, p1.fid] },
       { start := 3, end_ := 6, char_start := "4P", char_end := "",
         fids := [p3.fid, p4.fid] }] ∧
    (PointsSegment.mk 0 2 "" "4P" [p0.fid, p1.fid]).create_new_names =
      some [(p0.fid, "1Pnowy"), (p1.fid, "2Pnowy")] ∧
    (PointsSegment.mk 3 6 "4P" "" [p3.fid, p4.fid]).create_new_names =
      some [(p3.fid, "5P"), (p4.fid, "6P")] := by
  have hbp : calc_breakpoints [p0, p1, p2, p3, p4] = [(2, "4P")] := by
    simp +decide [calc_breakpoints, breakpointsFrom, h0, h1, h2, h3, h4]
  refine ⟨?_, ?_, ?_⟩
  · simp only [segmentsOfRun, hbp]
    norm_num [calc_intervals, mkSegment, bpGet, pydictFind, List.find?]
  · simp +decide [PointsSegment.create_new_names, PointsSegment.state,
      naming_two, List.enum, List.enumFrom]
  · have hp : pyInt (strInit ("4P")) = some 4 := by decide
    simp +decide [PointsSegment.create_new_names, PointsSegment.state,
      naming_four, hp, List.enum, List.enumFrom]

theorem claim3_witness :
    segmentsOfRun [⟨10, 0, 1, none⟩, ⟨11, 0, 2, some ("")⟩, ⟨12, 0, 3, some ("4P")⟩,
        ⟨13, 0, 4, none⟩, ⟨14, 0, 5, none⟩] =
      [{ start := 0, end_ := 2, char_start := "", char_end := "4P",
         fids := [(10 : Nat), 11] },
       { start := 3, end_ := 6, char_start := "4P", char_end := "",
         fids := [(13 : Nat), 14] }] ∧
    (PointsSegment.mk 0 2 "" "4P" [10, 11]).create_new_names =
      some [(10, "1Pnowy"), (11, "2Pnowy")] ∧
    (PointsSegment.mk 3 6 "4P" "" [13, 14]).create_new_names =
      some [(13, "5P"), (14, "6P")] :=
  claim3_five_point_scenario ⟨10, 0, 1, none⟩ ⟨11, 0, 2, some ("")⟩
    ⟨12, 0, 3, some ("4P")⟩ ⟨13, 0, 4, none⟩ ⟨14, 0, 5, none⟩
    (by decide) (by decide) (by decide) (by decide) (by decide)

/-! ### YN naming: C1 (corrected) and C8 -/

/-- Counterexample to C1 as stated: for the YN segment with
`startAnchor = "55"`, the spec's `numericPrefix` ("strip the trailing
non-digit suffix, parse the remaining leading digits") yields 55, so the
claimed name of the single member is "56P"; the code instead computes
`int("55"[:-1]) = 5` and produces "6P". -/
theorem claim1_counterexample :
    (PointsSegment.mk 3 6 "55" "" [7]).state = 4 ∧
    specNumericStem ("55") = some 55 ∧
    toString ((55 : Int) + 1) ++ "P" = "56P" ∧
    (PointsSegment.mk 3 6 "55" "" [7]).create_new_names = some [(7, "6P")] ∧
    ("6P" : String) ≠ "56P" := by decide

/-- C1 (amended): for every YN-state segment whose `startAnchor` minus its
final character parses as the integer `d` (`int(char_start[:-1])`), the
k-th member (0-based `k`) is named `"{d+k+1}P"`.  For the legacy
convention of digits followed by one trailing letter this is the claimed
(d+1)P, (d+2)P, ... sequence. -/
theorem claim1_yn_numeric_names (s : PointsSegment) (d : Int) (k : Nat)
    (h4 : s.state = 4) (hd : pyInt (strInit s.char_start) = some d)
    (hk : k < s.fids.length) :
    (s.create_new_names).bind (fun ns => ns[k]?) =
      some (s.fids.get ⟨k, hk⟩, toString (d + (k : Int) + 1) ++ "P") := by
  have hne : s.fids ≠ [] := by
    intro h
    rw [h] at hk
    simp at hk
  unfold PointsSegment.create_new_names
  rw [if_neg hne, h4]
  show (naming_four s.char_start s.fids).bind _ = _
  unfold naming_four
  rw [hd]
  simp only [Option.map_some', Option.some_bind]
  rw [List.getElem?_map,
    List.getElem?_eq_getElem (show k < s.fids.enum.length by simpa using hk),
    List.getElem_enum]
  simp

theorem claim1_witness :
    (PointsSegment.mk 0 4 (" 5P") ("") [9, 10, 11]).create_new_names.bind
      (fun ns => ns[2]?) =
      some (([9, 10, 11] : List Nat).get ⟨2, by decide⟩,
        toString ((5 : Int) + ((2 : Nat) : Int) + 1) ++ "P") :=
  claim1_yn_numeric_names (PointsSegment.mk 0 4 (" 5P") ("") [9, 10, 11]) 5 2
    (by decide) (by decide) (by decide)

theorem dropWhile_head_false {α : Type} {p : α → Bool} : ∀ (l : List α)
    (c : α) (rest : List α), l.dropWhile p = c :: rest → p c = false := by
  intro l
  induction l with
  | nil => intro c rest h; simp at h
  | cons x xs ih =>
    intro c rest h
    by_cases hx : p x
    · rw [List.dropWhile_cons_of_pos hx] at h
      exact ih c rest h
    · rw [List.dropWhile_cons_of_neg hx] at h
      injection h with h1 _
      rw [← h1]
      simpa using hx

theorem dropWhile_dropLast {α : Type} (p : α → Bool) :
    ∀ (l : List α), l.dropLast.dropWhile p = (l.dropWhile p).dropLast := by
  intro l
  induction l with
  | nil => rfl
  | cons x xs ih =>
    cases xs with
    | nil => by_cases hx : p x <;> simp [hx]
    | cons y ys =>
      rw [List.dropLast_cons₂]
      by_cases hx : p x
      · rw [List.dropWhile_cons_of_pos hx, List.dropWhile_cons_of_pos hx]
        exact ih
      · rw [List.dropWhile_cons_of_neg hx, List.dropWhile_cons_of_neg hx,
          List.dropLast_cons₂]

theorem dropWhile_append_single {α : Type} [DecidableEq α] (p : α → Bool) (c : α) :
    ∀ (A : List α), (A ++ [c]).dropWhile p =
      if A.dropWhile p = [] then (if p c then [] else [c])
      else A.dropWhile p ++ [c] := by
  intro A
  induction A with
  | nil =>
    rw [List.nil_append, List.dropWhile_nil, if_pos rfl]
    by_cases hc : p c <;> simp [List.dropWhile_cons, hc]
  | cons a A' ih =>
    by_cases ha : p a
    · rw [List.cons_append, List.dropWhile_cons_of_pos ha,
        List.dropWhile_cons_of_pos ha, ih]
    · rw [List.cons_append, List.dropWhile_cons_of_neg ha,
        List.dropWhile_cons_of_neg ha, if_neg (by simp), List.cons_append]

theorem stripEnd_nil : stripEnd ([] : List Char) = [] := rfl

theorem stripEnd_cons_of_not_space (c : Char) (X : List Char)
    (hc : isPySpace c = false) : stripEnd (c :: X) = c :: stripEnd X := by
  unfold stripEnd
  rw [List.reverse_cons, dropWhile_append_single]
  split_ifs with h1 h2
  · exact absurd h2 (by simp [hc])
  · rw [h1]
    simp
  · simp

theorem stripEnd_cons (c : Char) (X : List Char) :
    stripEnd (c :: X) = [] ∨ ∃ Y, stripEnd (c :: X) = c :: Y := by
  unfold stripEnd
  rw [List.reverse_cons, dropWhile_append_single]
  split_ifs with h1 h2
  · exact Or.inl rfl
  · exact Or.inr ⟨[], by simp⟩
  · exact Or.inr ⟨(X.reverse.dropWhile isPySpace).reverse, by simp⟩

/-- An anchor with no parseable leading integer (after whitespace
stripping, no optional-sign-then-digit head) still has none after its
final character is dropped, so `int(char_start[:-1])` raises. -/
theorem pyIntChars_dropLast_none : ∀ (l : List Char),
    hasLeadingInt ⟨l⟩ = false → pyIntChars l.dropLast = none := by
  intro l hbad
  have hbadc : hasLeadingIntCore (l.dropWhile isPySpace) = false := hbad
  show pyIntCore (pyStrip l.dropLast) = none
  unfold pyStrip
  rw [dropWhile_dropLast]
  cases hf : l.dropWhile isPySpace with
  | nil => rfl
  | cons c rest =>
    have hcws : isPySpace c = false := dropWhile_head_false l c rest hf
    rw [hf] at hbadc
    simp only [hasLeadingIntCore] at hbadc
    by_cases hsign : c = '-' ∨ c = '+'
    · rw [if_pos hsign] at hbadc
      cases rest with
      | nil => rw [List.dropLast_single]; rfl
      | cons c2 rs =>
        have hbadc2 : (pyDigitVal c2).isSome = false := hbadc
        have hv2 : pyDigitVal c2 = none := by
          cases hv : pyDigitVal c2 with
          | none => rfl
          | some v => rw [hv] at hbadc2; simp at hbadc2
        rw [List.dropLast_cons₂, stripEnd_cons_of_not_space c _ hcws]
        have hdig : pyDigits (stripEnd (c2 :: rs).dropLast) = none := by
          cases rs with
          | nil => rw [List.dropLast_single, stripEnd_nil]; rfl
          | cons r rs' =>
            rw [List.dropLast_cons₂]
            rcases stripEnd_cons c2 ((r :: rs').dropLast) with h | ⟨Y, hY⟩
            · rw [h]
              rfl
            · rw [hY]
              simp only [pyDigits, hv2]
        rcases hsign with h | h <;> subst h <;> simp [pyIntCore, hdig]
    · rw [if_neg hsign] at hbadc
      have hvc : pyDigitVal c = none := by
        cases hv : pyDigitVal c with
        | none => rfl
        | some v => rw [hv] at hbadc; simp at hbadc
      push_neg at hsign
      cases rest with
      | nil => rw [List.dropLast_single]; rfl
      | cons r rs =>
        rw [List.dropLast_cons₂, stripEnd_cons_of_not_space c _ hcws]
        simp [pyIntCore, hsign.1, hsign.2, pyDigits, hvc]

/-- Counterexample to C8 as stated: the anchor " 5P" lacks a parseable
leading integer in the spec's sense — its `numericPrefix` strips the
trailing "P" and finds no leading digits, the first character being a
space — yet the Namer does not fail: CPython's `int` strips whitespace,
so `int(" 5P"[:-1]) = int(" 5") = 5`, and the single member is named
"6P". -/
theorem claim8_counterexample :
    (PointsSegment.mk 3 6 (" 5P") ("") [7]).state = 4 ∧
    specNumericStem (" 5P") = none ∧
    (PointsSegment.mk 3 6 (" 5P") ("") [7]).create_new_names =
      some [(7, "6P")] ∧
    (PointsSegment.mk 3 6 (" 5P") ("") [7]).create_new_names ≠ none := by
  decide

/-- C8 (amended): the Namer fails exactly when `int(char_start[:-1])`
raises; in particular every YN-state segment with at least one member
whose start anchor — an ASCII string, on which the modelled digit and
whitespace sets coincide with CPython's — does not begin, after
whitespace stripping, with an optional sign directly followed by a
decimal digit, makes `create_new_names` fail rather than silently
default.  The ASCII guard scopes the statement to the repertoire where
`pyDigitVal` is exact; CPython also accepts further Unicode Nd digits,
and an anchor leading with one of those is named, not failed. -/
theorem claim8_yn_malformed_anchor_fails (s : PointsSegment)
    (h4 : s.state = 4) (hne : s.fids ≠ [])
    (hascii : ∀ c ∈ s.char_start.data, c.toNat < 128)
    (hbad : hasLeadingInt s.char_start = false) :
    s.create_new_names = none := by
  have hnone : pyInt (strInit s.char_start) = none :=
    pyIntChars_dropLast_none s.char_start.data hbad
  unfold PointsSegment.create_new_names
  rw [if_neg hne, h4]
  show naming_four s.char_start s.fids = none
  unfold naming_four
  rw [hnone]
  rfl

theorem claim8_witness :
    (PointsSegment.mk 0 1 ("AB") ("") [1]).create_new_names = none :=
  claim8_yn_malformed_anchor_fails (PointsSegment.mk 0 1 ("AB") ("") [1])
    (by decide) (by decide) (by decide) (by decide)

/-! ### Python-dict lemmas shared by the locator (C5, C9) and the global
name mapping (C7) -/

theorem getLast?_cons_or {α : Type} (a : α) (l : List α) :
    (a :: l).getLast? = l.getLast?.or (some a) := by
  cases l with
  | nil => rfl
  | cons b t =>
    rw [List.getLast?_cons_cons, List.getLast?_cons]
    rfl

theorem pydictInsert_map_fst {α β : Type} [DecidableEq α]
    (d : List (α × β)) (k : α) (v : β) :
    (pydictInsert d k v).map Prod.fst =
      if k ∈ d.map Prod.fst then d.map Prod.fst
      else d.map Prod.fst ++ [k] := by
  unfold pydictInsert
  split_ifs with h
  · rw [List.map_map]
    apply List.map_congr_left
    intro kv _
    by_cases hk : kv.1 = k <;> simp [hk]
  · simp

theorem pydictInsert_keys_nodup {α β : Type} [DecidableEq α]
    {d : List (α × β)} (k : α) (v : β) (h : (d.map Prod.fst).Nodup) :
    ((pydictInsert d k v).map Prod.fst).Nodup := by
  rw [pydictInsert_map_fst]
  split_ifs with hk
  · exact h
  · refine List.Nodup.append h (List.nodup_singleton _) ?_
    intro a ha hb
    rw [List.mem_singleton] at hb
    subst hb
    exact hk ha

theorem pydictInsert_mem {α β : Type} [DecidableEq α]
    {d : List (α × β)} {k : α} {v : β} {kv : α × β}
    (h : kv ∈ pydictInsert d k v) : kv ∈ d ∨ kv = (k, v) := by
  unfold pydictInsert at h
  split_ifs at h with hk
  · rcases List.mem_map.1 h with ⟨kv', hkv', heq⟩
    by_cases hkk : kv'.1 = k
    · right
      rw [← heq]
      simp [hkk]
    · left
      rw [← heq]
      simpa [hkk] using hkv'
  · rcases List.mem_append.1 h with h1 | h1
    · exact Or.inl h1
    · right
      simpa using h1

theorem pydictFind_insert_self_aux {α β : Type} [DecidableEq α] :
    ∀ (d : List (α × β)) (k : α) (v : β), k ∈ d.map Prod.fst →
    pydictFind (d.map (fun kv => if kv.1 = k then (kv.1, v) else kv)) k =
      some v := by
  intro d
  induction d with
  | nil => intro k v h; simp at h
  | cons kv' rest ih =>
    intro k v h
    by_cases hk : kv'.1 = k
    · unfold pydictFind
      rw [List.map_cons, List.find?_cons_of_pos _ (by simp [hk])]
      simp [hk]
    · have h' : k ∈ rest.map Prod.fst := by
        rw [List.map_cons] at h
        rcases List.mem_cons.1 h with h1 | h1
        · exact absurd h1.symm hk
        · exact h1
      unfold pydictFind
      rw [List.map_cons, List.find?_cons_of_neg _ (by simp [hk])]
      exact ih k v h'

theorem pydictFind_insert_self {α β : Type} [DecidableEq α]
    (d : List (α × β)) (k : α) (v : β) :
    pydictFind (pydictInsert d k v) k = some v := by
  unfold pydictInsert
  split_ifs with h
  · exact pydictFind_insert_self_aux d k v h
  · unfold pydictFind
    rw [List.find?_append]
    have hnone : d.find? (fun kv => decide (kv.1 = k)) = none := by
      refine List.find?_eq_none.2 (fun kv hkv => ?_)
      simp only [decide_eq_true_eq]
      intro he
      exact h (he ▸ List.mem_map_of_mem Prod.fst hkv)
    rw [hnone]
    simp [List.find?]

theorem pydictFind_mapped_other {α β : Type} [DecidableEq α] :
    ∀ (d : List (α × β)) (k : α) (v : β) (q : α), q ≠ k →
    pydictFind (d.map (fun kv => if kv.1 = k then (kv.1, v) else kv)) q =
      pydictFind d q := by
  intro d
  induction d with
  | nil => intro k v q _; rfl
  | cons kv' rest ih =>
    intro k v q hq
    have hfst : ((if kv'.1 = k then (kv'.1, v) else kv') : α × β).1 = kv'.1 := by
      split_ifs <;> rfl
    by_cases hpred : kv'.1 = q
    · have hk : ¬(kv'.1 = k) := by
        rw [hpred]
        exact hq
      unfold pydictFind
      rw [List.map_cons,
        List.find?_cons_of_pos _ (by simp only [hfst]; simp [hpred]),
        List.find?_cons_of_pos _ (by simp [hpred])]
      simp [hk]
    · unfold pydictFind
      rw [List.map_cons,
        List.find?_cons_of_neg _ (by simp only [hfst]; simp [hpred]),
        List.find?_cons_of_neg _ (by simp [hpred])]
      exact ih k v q hq

theorem pydictFind_insert_other {α β : Type} [DecidableEq α]
    (d : List (α × β)) (k : α) (v : β) {q : α} (hq : q ≠ k) :
    pydictFind (pydictInsert d k v) q = pydictFind d q := by
  unfold pydictInsert
  split_ifs with h
  · exact pydictFind_mapped_other d k v q hq
  · unfold pydictFind
    rw [List.find?_append]
    have hsingle : List.find? (fun kv => decide (kv.1 = q)) [(k, v)] = none := by
      simp [List.find?, Ne.symm hq]
    rw [hsingle, Option.or_none]

/-- The `update` loop of a Python dict: afterwards a key holds the value
of its last assignment in `ns`, or its old value when `ns` never assigns
it. -/
theorem pydictFind_update {α β : Type} [DecidableEq α] :
    ∀ (ns : List (α × β)) (d : List (α × β)) (k : α),
    pydictFind (pydictUpdate d ns) k =
      ((ns.filter (fun kv => decide (kv.1 = k))).getLast?.map Prod.snd).or
        (pydictFind d k) := by
  intro ns
  induction ns with
  | nil => intro d k; simp [pydictUpdate]
  | cons kv rest ih =>
    intro d k
    have hstep : pydictUpdate d (kv :: rest) =
        pydictUpdate (pydictInsert d kv.1 kv.2) rest := rfl
    rw [hstep, ih, List.filter_cons]
    by_cases hk : kv.1 = k
    · rw [if_pos (by simpa using hk), getLast?_cons_or]
      have hself : pydictFind (pydictInsert d kv.1 kv.2) k = some kv.2 := by
        rw [hk] at *
        exact pydictFind_insert_self d k kv.2
      rw [hself]
      cases hlast : (rest.filter (fun kv => decide (kv.1 = k))).getLast? with
      | none => rfl
      | some a => rfl
    · rw [if_neg (by simpa using hk),
        pydictFind_insert_other d kv.1 kv.2 (fun he => hk he.symm)]

theorem pydictFind_of_nodup_mem {α β : Type} [DecidableEq α] :
    ∀ (l : List (α × β)), (l.map Prod.fst).Nodup → ∀ (k : α) (v : β),
    (k, v) ∈ l → pydictFind l k = some v := by
  intro l
  induction l with
  | nil => intro _ k v hm; simp at hm
  | cons h t ih =>
    intro hn k v hm
    unfold pydictFind
    rcases List.mem_cons.1 hm with heq | hm'
    · rw [← heq, List.find?_cons_of_pos _ (by simp)]
      rfl
    · have hmem : k ∈ t.map Prod.fst := List.mem_map_of_mem Prod.fst hm'
      rw [List.map_cons, List.nodup_cons] at hn
      have hk : ¬(h.1 = k) := fun he => hn.1 (by rw [he]; exact hmem)
      rw [List.find?_cons_of_neg _ (by simp [hk])]
      exact ih hn.2 k v hm'

/-! ### Point locator: C5 (corrected) and C9 -/

theorem intersectingFold_mem : ∀ (pts : List QgsPointFeature)
    (d : List (ℚ × QgsPointFeature)) (kv : ℚ × QgsPointFeature),
    kv ∈ pts.foldl
      (fun d p => if p.dist < tolerance then pydictInsert d p.loc p else d) d →
    kv ∈ d ∨ (kv.2 ∈ pts ∧ kv.2.dist < tolerance ∧ kv.1 = kv.2.loc) := by
  intro pts
  induction pts with
  | nil => intro d kv h; exact Or.inl h
  | cons p rest ih =>
    intro d kv h
    simp only [List.foldl_cons] at h
    rcases ih _ kv h with h1 | h1
    · by_cases hq : p.dist < tolerance
      · rw [if_pos hq] at h1
        rcases pydictInsert_mem h1 with h2 | h2
        · exact Or.inl h2
        · subst h2
          exact Or.inr ⟨List.mem_cons_self p rest, hq, rfl⟩
      · rw [if_neg hq] at h1
        exact Or.inl h1
    · exact Or.inr ⟨List.mem_cons_of_mem p h1.1, h1.2⟩

theorem intersectingFold_keys_nodup : ∀ (pts : List QgsPointFeature)
    (d : List (ℚ × QgsPointFeature)), (d.map Prod.fst).Nodup →
    ((pts.foldl
      (fun d p => if p.dist < tolerance then pydictInsert d p.loc p else d)
        d).map Prod.fst).Nodup := by
  intro pts
  induction pts with
  | nil => intro d h; exact h
  | cons p rest ih =>
    intro d h
    simp only [List.foldl_cons]
    apply ih
    by_cases hq : p.dist < tolerance
    · rw [if_pos hq]
      exact pydictInsert_keys_nodup p.loc p h
    · rwa [if_neg hq]

theorem intersectingFold_find : ∀ (pts : List QgsPointFeature)
    (d : List (ℚ × QgsPointFeature)) (k : ℚ),
    pydictFind (pts.foldl
      (fun d p => if p.dist < tolerance then pydictInsert d p.loc p else d) d)
        k =
    ((pts.filter (fun q => decide (q.dist < tolerance ∧ q.loc = k))).getLast?).or
      (pydictFind d k) := by
  intro pts
  induction pts with
  | nil => intro d k; simp
  | cons p rest ih =>
    intro d k
    simp only [List.foldl_cons, List.filter_cons]
    by_cases hmatch : p.dist < tolerance ∧ p.loc = k
    · rw [if_pos hmatch.1, ih, if_pos (decide_eq_true hmatch),
        getLast?_cons_or, Option.or_assoc]
      have hself : pydictFind (pydictInsert d p.loc p) k = some p := by
        rw [hmatch.2]
        exact pydictFind_insert_self d k p
      rw [hself]
      rfl
    · by_cases hq : p.dist < tolerance
      · have hk : k ≠ p.loc := fun he => hmatch ⟨hq, he.symm⟩
        rw [if_pos hq, ih, pydictFind_insert_other d p.loc p hk,
          if_neg (by simp [hmatch])]
      · rw [if_neg hq, ih, if_neg (by simp [hmatch])]

theorem intersectingDict_inv (pts : List QgsPointFeature)
    (kv : ℚ × QgsPointFeature) (h : kv ∈ intersectingDict pts) :
    kv.2 ∈ pts ∧ kv.2.dist < tolerance ∧ kv.1 = kv.2.loc := by
  rcases intersectingFold_mem pts [] kv h with h1 | h1
  · simp at h1
  · exact h1

theorem intersectingDict_find (pts : List QgsPointFeature) (k : ℚ) :
    pydictFind (intersectingDict pts) k =
      (pts.filter (fun q => decide (q.dist < tolerance ∧ q.loc = k))).getLast? := by
  unfold intersectingDict
  rw [intersectingFold_find pts [] k,
    show pydictFind ([] : List (ℚ × QgsPointFeature)) k = none from rfl,
    Option.or_none]

/-- C9: equal arclength positions collide as dict keys, so the run keeps
at most one point per arclength value, namely the last qualifying point
in enumeration order. -/
theorem claim9_equal_arclength_last_point_wins (pts : List QgsPointFeature) :
    ((intersecting_points_sorted_by_direction pts).map
      QgsPointFeature.loc).Nodup ∧
    ∀ p ∈ intersecting_points_sorted_by_direction pts,
      (pts.filter (fun q =>
        decide (q.dist < tolerance ∧ q.loc = p.loc))).getLast? = some p := by
  have hkeys : ((intersectingDict pts).map Prod.fst).Nodup :=
    intersectingFold_keys_nodup pts [] (by simp)
  have hperm : ((intersectingDict pts).insertionSort locKeyLe).Perm
      (intersectingDict pts) := List.perm_insertionSort _ _
  have hkeys' : (((intersectingDict pts).insertionSort locKeyLe).map
      Prod.fst).Nodup := ((hperm.map Prod.fst).nodup_iff).2 hkeys
  constructor
  · unfold intersecting_points_sorted_by_direction
    rw [List.map_map]
    have hcongr : ((intersectingDict pts).insertionSort locKeyLe).map
        (QgsPointFeature.loc ∘ Prod.snd) =
        ((intersectingDict pts).insertionSort locKeyLe).map Prod.fst := by
      apply List.map_congr_left
      intro kv hkv
      have hinv := intersectingDict_inv pts kv
        ((List.mem_insertionSort locKeyLe).1 hkv)
      exact (hinv.2.2).symm
    rw [hcongr]
    exact hkeys'
  · intro p hp
    unfold intersecting_points_sorted_by_direction at hp
    rcases List.mem_map.1 hp with ⟨kv, hkv, hsnd⟩
    have hmemd : kv ∈ intersectingDict pts :=
      (List.mem_insertionSort locKeyLe).1 hkv
    have hinv := intersectingDict_inv pts kv hmemd
    have hkvp : kv = (p.loc, p) := Prod.ext (by rw [hinv.2.2, hsnd]) hsnd
    have hfind : pydictFind (intersectingDict pts) p.loc = some p :=
      pydictFind_of_nodup_mem _ hkeys p.loc p (hkvp ▸ hmemd)
    rw [← intersectingDict_find]
    exact hfind

theorem claim9_witness :
    ((intersecting_points_sorted_by_direction
      [⟨1, 0, 3, none⟩, ⟨2, 0, 3, none⟩]).map QgsPointFeature.loc).Nodup ∧
    ∀ p ∈ intersecting_points_sorted_by_direction
        [⟨1, 0, 3, none⟩, ⟨2, 0, 3, none⟩],
      (([⟨1, 0, 3, none⟩, ⟨2, 0, 3, none⟩] :
        List QgsPointFeature).filter (fun q =>
          decide (q.dist < tolerance ∧ q.loc = p.loc))).getLast? = some p :=
  claim9_equal_arclength_last_point_wins _

/-- Counterexample to C5 as stated: with two points at the same arclength
position, both within tolerance, the dict keyed by arclength keeps only
one of them, so the output does not contain every qualifying point. -/
theorem claim5_counterexample :
    (⟨1, 0, 3, none⟩ : QgsPointFeature).dist < tolerance ∧
    (⟨1, 0, 3, none⟩ : QgsPointFeature) ∈
      ([⟨1, 0, 3, none⟩, ⟨2, 0, 3, none⟩] : List QgsPointFeature) ∧
    (⟨1, 0, 3, none⟩ : QgsPointFeature) ∉
      intersecting_points_sorted_by_direction
        [⟨1, 0, 3, none⟩, ⟨2, 0, 3, none⟩] := by decide

theorem intersectingFold_eq_of_nodup : ∀ (pts : List QgsPointFeature)
    (d : List (ℚ × QgsPointFeature)),
    ((d.map Prod.fst) ++
      ((pts.filter (fun q => decide (q.dist < tolerance))).map
        QgsPointFeature.loc)).Nodup →
    pts.foldl
      (fun d p => if p.dist < tolerance then pydictInsert d p.loc p else d) d =
    d ++ (pts.filter (fun q => decide (q.dist < tolerance))).map
      (fun p => (p.loc, p)) := by
  intro pts
  induction pts with
  | nil => intro d _; simp
  | cons p rest ih =>
    intro d hn
    simp only [List.foldl_cons]
    by_cases hq : p.dist < tolerance
    · have hdec : decide (p.dist < tolerance) = true := decide_eq_true hq
      rw [List.filter_cons, if_pos hdec, List.map_cons] at hn
      have hnotin : p.loc ∉ d.map Prod.fst := by
        intro hmem
        rcases List.nodup_append.1 hn with ⟨_, _, hdisj⟩
        exact hdisj hmem (List.mem_cons_self _ _)
      rw [if_pos hq,
        show pydictInsert d p.loc p = d ++ [(p.loc, p)] from by
          unfold pydictInsert; rw [if_neg hnotin],
        ih (d ++ [(p.loc, p)]) (by
          rw [List.map_append]
          simp only [List.map_cons, List.map_nil]
          rw [List.append_assoc, List.singleton_append]
          exact hn),
        List.filter_cons, if_pos hdec]
      simp
    · have hdec : decide (p.dist < tolerance) = false := decide_eq_false hq
      rw [List.filter_cons, if_neg (by simp [hdec])] at hn
      rw [if_neg hq, ih d hn, List.filter_cons, if_neg (by simp [hdec])]

/-- C5 (corrected): every output point is a point of the collection with
distance strictly below 1e-6; for every qualifying point some output
point shares its arclength; the output ascends by arclength; and whenever
the qualifying points' arclengths are pairwise distinct the output is a
permutation of exactly the qualifying points.  The boundary cases are
pinned concretely: distance exactly 1e-6 is excluded, 9.9e-7 included.
(With tied arclengths only the last tied point survives — see the
counterexample and C9.) -/
theorem claim5_locator_tolerance_and_order (pts : List QgsPointFeature) :
    (∀ p ∈ intersecting_points_sorted_by_direction pts,
      p ∈ pts ∧ p.dist < tolerance) ∧
    (∀ p ∈ pts, p.dist < tolerance →
      ∃ q ∈ intersecting_points_sorted_by_direction pts, q.loc = p.loc) ∧
    (intersecting_points_sorted_by_direction pts).Pairwise
      (fun a b => a.loc ≤ b.loc) ∧
    (((pts.filter (fun q => decide (q.dist < tolerance))).map
        QgsPointFeature.loc).Nodup →
      (intersecting_points_sorted_by_direction pts).Perm
        (pts.filter (fun q => decide (q.dist < tolerance)))) ∧
    intersecting_points_sorted_by_direction [⟨1, tolerance, 0, none⟩] = [] ∧
    intersecting_points_sorted_by_direction [⟨1, mkRat 99 100000000, 0, none⟩] =
      [⟨1, mkRat 99 100000000, 0, none⟩] := by
  refine ⟨?_, ?_, ?_, ?_, by decide, by decide⟩
  · intro p hp
    rcases List.mem_map.1 hp with ⟨kv, hkv, hsnd⟩
    have hinv := intersectingDict_inv pts kv
      ((List.mem_insertionSort locKeyLe).1 hkv)
    exact ⟨hsnd ▸ hinv.1, hsnd ▸ hinv.2.1⟩
  · intro p hp hq
    have hfilter : p ∈ pts.filter (fun q =>
        decide (q.dist < tolerance ∧ q.loc = p.loc)) :=
      List.mem_filter.2 ⟨hp, by simp [hq]⟩
    have hne : pts.filter (fun q =>
        decide (q.dist < tolerance ∧ q.loc = p.loc)) ≠ [] := by
      intro h
      rw [h] at hfilter
      simp at hfilter
    obtain ⟨q, hql⟩ := Option.isSome_iff_exists.1
      (List.getLast?_isSome.2 hne)
    have hfind : pydictFind (intersectingDict pts) p.loc = some q := by
      rw [intersectingDict_find, hql]
    obtain ⟨kv, hfsome⟩ : ∃ kv, (intersectingDict pts).find?
        (fun kv => decide (kv.1 = p.loc)) = some kv := by
      unfold pydictFind at hfind
      cases hf : (intersectingDict pts).find?
          (fun kv => decide (kv.1 = p.loc)) with
      | none => rw [hf] at hfind; simp at hfind
      | some kv => exact ⟨kv, rfl⟩
    have hkvq : kv.2 = q := by
      unfold pydictFind at hfind
      rw [hfsome] at hfind
      simpa using hfind
    have hkey : kv.1 = p.loc := by
      have := List.find?_some hfsome
      simpa using this
    have hmemd : kv ∈ intersectingDict pts := List.mem_of_find?_eq_some hfsome
    have hinv := intersectingDict_inv pts kv hmemd
    refine ⟨q, ?_, ?_⟩
    · unfold intersecting_points_sorted_by_direction
      exact hkvq ▸ List.mem_map_of_mem Prod.snd
        ((List.mem_insertionSort locKeyLe).2 hmemd)
    · rw [← hkvq, ← hinv.2.2, hkey]
  · have hs : ((intersectingDict pts).insertionSort locKeyLe).Pairwise
        (fun a b => a.2.loc ≤ b.2.loc) := by
      refine List.Pairwise.imp_of_mem ?_
        (List.sorted_insertionSort locKeyLe (intersectingDict pts))
      intro a b ha hb hr
      have hia := intersectingDict_inv pts a
        ((List.mem_insertionSort locKeyLe).1 ha)
      have hib := intersectingDict_inv pts b
        ((List.mem_insertionSort locKeyLe).1 hb)
      rw [← hia.2.2, ← hib.2.2]
      exact hr
    unfold intersecting_points_sorted_by_direction
    exact List.pairwise_map.2 hs
  · intro hn
    have hd : intersectingDict pts =
        (pts.filter (fun q => decide (q.dist < tolerance))).map
          (fun p => (p.loc, p)) := by
      unfold intersectingDict
      rw [intersectingFold_eq_of_nodup pts [] (by simpa using hn)]
      simp
    unfold intersecting_points_sorted_by_direction
    have hperm : ((intersectingDict pts).insertionSort locKeyLe).Perm
        (intersectingDict pts) := List.perm_insertionSort _ _
    have h1 := hperm.map Prod.snd
    have h2 : (intersectingDict pts).map Prod.snd =
        pts.filter (fun q => decide (q.dist < tolerance)) := by
      rw [hd, List.map_map,
        show (Prod.snd ∘ fun p : QgsPointFeature => (p.loc, p)) = id from rfl,
        List.map_id]
    rw [h2] at h1
    exact h1

theorem claim5_witness :
    (∀ p ∈ intersecting_points_sorted_by_direction
        [⟨1, 0, 7, none⟩, ⟨2, 1, 5, none⟩],
      p ∈ ([⟨1, 0, 7, none⟩, ⟨2, 1, 5, none⟩] : List QgsPointFeature) ∧
        p.dist < tolerance) ∧
    (∀ p ∈ ([⟨1, 0, 7, none⟩, ⟨2, 1, 5, none⟩] : List QgsPointFeature),
      p.dist < tolerance →
      ∃ q ∈ intersecting_points_sorted_by_direction
        [⟨1, 0, 7, none⟩, ⟨2, 1, 5, none⟩], q.loc = p.loc) ∧
    (intersecting_points_sorted_by_direction
      [⟨1, 0, 7, none⟩, ⟨2, 1, 5, none⟩]).Pairwise
        (fun a b => a.loc ≤ b.loc) ∧
    (((([⟨1, 0, 7, none⟩, ⟨2, 1, 5, none⟩] :
        List QgsPointFeature).filter (fun q =>
          decide (q.dist < tolerance))).map QgsPointFeature.loc).Nodup →
      (intersecting_points_sorted_by_direction
        [⟨1, 0, 7, none⟩, ⟨2, 1, 5, none⟩]).Perm
        (([⟨1, 0, 7, none⟩, ⟨2, 1, 5, none⟩] :
          List QgsPointFeature).filter (fun q =>
            decide (q.dist < tolerance)))) ∧
    intersecting_points_sorted_by_direction [⟨1, tolerance, 0, none⟩] = [] ∧
    intersecting_points_sorted_by_direction [⟨1, mkRat 99 100000000, 0, none⟩] =
      [⟨1, mkRat 99 100000000, 0, none⟩] :=
  claim5_locator_tolerance_and_order _

/-! ### Global name mapping: C7 -/

theorem create_new_names_eq_foldl : ∀ (segs : List PointsSegment)
    (base : List (Nat × String)) (nss : List (List (Nat × String))),
    segs.mapM PointsSegment.create_new_names = some nss →
    create_new_names base segs = some (nss.foldl pydictUpdate base) := by
  intro segs
  induction segs with
  | nil =>
    intro base nss h
    simp only [List.mapM_nil, pure, Option.some.injEq] at h
    subst h
    rfl
  | cons s rest ih =>
    intro base nss h
    rw [List.mapM_cons] at h
    cases hs : s.create_new_names with
    | none => rw [hs] at h; simp at h
    | some ns =>
      cases hrest : rest.mapM PointsSegment.create_new_names with
      | none => rw [hs, hrest] at h; simp at h
      | some nss' =>
        rw [hs, hrest] at h
        simp at h
        subst h
        show (s :: rest).foldlM
          (fun d s => (s.create_new_names).map (fun ns => pydictUpdate d ns))
            base = _
        rw [List.foldlM_cons]
        simp only [hs, Option.map_some', Option.some_bind]
        rw [List.foldl_cons]
        exact ih (pydictUpdate base ns) nss' hrest

theorem pydictFind_foldl_update {α β : Type} [DecidableEq α] :
    ∀ (nss : List (List (α × β))) (base : List (α × β)) (k : α),
    pydictFind (nss.foldl pydictUpdate base) k =
      ((nss.flatten.filter (fun kv => decide (kv.1 = k))).getLast?.map
        Prod.snd).or (pydictFind base k) := by
  intro nss
  induction nss with
  | nil => intro base k; simp
  | cons ns rest ih =>
    intro base k
    rw [List.foldl_cons, ih, pydictFind_update ns base k, List.flatten_cons,
      List.filter_append, List.getLast?_append]
    cases h1 : (rest.flatten.filter (fun kv => decide (kv.1 = k))).getLast? <;>
      cases h2 : (ns.filter (fun kv => decide (kv.1 = k))).getLast? <;>
        simp [Option.or]

theorem prepare_eq_update (pts : List QgsPointFeature) :
    prepare_new_values_dict pts =
      pydictUpdate [] (pts.map (fun p => (p.fid, p.legacy.getD ("NULL")))) := by
  unfold prepare_new_values_dict pydictUpdate
  rw [List.foldl_map]

theorem filter_map_fid_getLast : ∀ (pts : List QgsPointFeature),
    (pts.map QgsPointFeature.fid).Nodup → ∀ p ∈ pts,
    ((pts.map (fun q => (q.fid, q.legacy.getD ("NULL")))).filter
      (fun kv => decide (kv.1 = p.fid))).getLast? =
      some (p.fid, p.legacy.getD ("NULL")) := by
  intro pts
  induction pts with
  | nil => intro _ p hp; simp at hp
  | cons q rest ih =>
    intro hn p hp
    rw [List.map_cons, List.nodup_cons] at hn
    rw [List.map_cons]
    rcases List.mem_cons.1 hp with heq | hmem
    · subst heq
      rw [List.filter_cons, if_pos (by simp)]
      have hnil : (rest.map (fun q => (q.fid, q.legacy.getD ("NULL")))).filter
          (fun kv => decide (kv.1 = p.fid)) = [] := by
        rw [List.filter_eq_nil_iff]
        intro kv hkv
        rcases List.mem_map.1 hkv with ⟨r, hr, hre⟩
        simp only [decide_eq_true_eq]
        intro he
        have hfid : p.fid ∈ rest.map QgsPointFeature.fid := by
          have : kv.1 = r.fid := by rw [← hre]
          rw [← he, this]
          exact List.mem_map_of_mem QgsPointFeature.fid hr
        exact hn.1 hfid
      rw [hnil]
      rfl
    · have hqp : ¬(q.fid = p.fid) := by
        intro he
        exact hn.1 (he ▸ List.mem_map_of_mem QgsPointFeature.fid hmem)
      rw [List.filter_cons, if_neg (by simp [hqp])]
      exact ih hn.2 p hmem

/-- C7: the global mapping is seeded per feature id with the legacy name
(the "NULL" sentinel when the attribute is absent), then each segment's
generated names are folded in, in segment (hence watercourse) order; for
every id, the final value is the last generated name for that id across
all segments, and ids named by no segment keep their seeded value. -/
theorem claim7_global_mapping_last_write_wins (pts : List QgsPointFeature)
    (segs : List PointsSegment) (nss : List (List (Nat × String)))
    (h : segs.mapM PointsSegment.create_new_names = some nss) :
    create_new_names (prepare_new_values_dict pts) segs =
      some (nss.foldl pydictUpdate (prepare_new_values_dict pts)) ∧
    (∀ k, pydictFind (nss.foldl pydictUpdate (prepare_new_values_dict pts)) k =
      ((nss.flatten.filter (fun kv => decide (kv.1 = k))).getLast?.map
        Prod.snd).or (pydictFind (prepare_new_values_dict pts) k)) ∧
    ((pts.map QgsPointFeature.fid).Nodup → ∀ p ∈ pts,
      pydictFind (prepare_new_values_dict pts) p.fid =
        some (p.legacy.getD ("NULL"))) := by
  refine ⟨create_new_names_eq_foldl segs _ nss h,
    fun k => pydictFind_foldl_update nss _ k, ?_⟩
  intro hn p hp
  rw [prepare_eq_update, pydictFind_update,
    filter_map_fid_getLast pts hn p hp]
  rfl

theorem claim7_witness :
    create_new_names
      (prepare_new_values_dict [⟨1, 0, 0, none⟩, ⟨2, 0, 1, none⟩])
      [PointsSegment.mk 0 3 "" "" [1, 2], PointsSegment.mk 0 3 "" "" [2]] =
      some ([[(1, "1P"), (2, "2P")], [(2, "1P")]].foldl pydictUpdate
        (prepare_new_values_dict [⟨1, 0, 0, none⟩, ⟨2, 0, 1, none⟩])) ∧
    (∀ k, pydictFind
        ([[(1, "1P"), (2, "2P")], [(2, "1P")]].foldl pydictUpdate
          (prepare_new_values_dict [⟨1, 0, 0, none⟩, ⟨2, 0, 1, none⟩])) k =
      (([[(1, "1P"), (2, "2P")], [(2, "1P")]].flatten.filter
        (fun kv => decide (kv.1 = k))).getLast?.map Prod.snd).or
        (pydictFind
          (prepare_new_values_dict [⟨1, 0, 0, none⟩, ⟨2, 0, 1, none⟩]) k)) ∧
    ((([⟨1, 0, 0, none⟩, ⟨2, 0, 1, none⟩] :
        List QgsPointFeature).map QgsPointFeature.fid).Nodup →
      ∀ p ∈ ([⟨1, 0, 0, none⟩, ⟨2, 0, 1, none⟩] : List QgsPointFeature),
      pydictFind
        (prepare_new_values_dict [⟨1, 0, 0, none⟩, ⟨2, 0, 1, none⟩]) p.fid =
        some (p.legacy.getD ("NULL"))) :=
  claim7_global_mapping_last_write_wins
    [⟨1, 0, 0, none⟩, ⟨2, 0, 1, none⟩]
    [PointsSegment.mk 0 3 "" "" [1, 2], PointsSegment.mk 0 3 "" "" [2]]
    [[(1, "1P"), (2, "2P")], [(2, "1P")]] (by decide)

end RecruitTask
